import Mathlib

/-!
Verification of the `tmog-events` monthly activity digest generator
(`src/main.rs`) against its natural-language specification.

Strings from the Rust source are modelled as `List Char`; the helper
functions below are shallow embeddings of the `str` operations the
program uses (`starts_with`, `contains`, `replace`, `split_once`,
`strip_prefix`, `strip_suffix`, `split`).  Fallible operations
(`unwrap` on `Option`) are modelled with `Option`, where `none` stands
for a panic.
-/

set_option maxRecDepth 8000

namespace TmogEvents

/-- Check whether `p` is a prefix of `s`, as a boolean; models Rust
`str::starts_with` on string patterns. -/
def isPre : List Char → List Char → Bool
  | [], _ => true
  | _ :: _, [] => false
  | a :: p, b :: s => if a = b then isPre p s else false

/-- Check whether `p` occurs as a contiguous substring of `s`; models Rust
`str::contains` on string patterns. -/
def containsSub : List Char → List Char → Bool
  | [], p => isPre p []
  | c :: t, p => isPre p (c :: t) || containsSub t p

/-- Model of Rust `str::strip_prefix` with a string pattern. -/
def stripPre (p s : List Char) : Option (List Char) :=
  if isPre p s then some (s.drop p.length) else none

/-- Model of Rust `str::split_once('/')`: split at the first `'/'`. -/
def splitOnceSlash : List Char → Option (List Char × List Char)
  | [] => none
  | c :: t =>
    if c = '/' then some ([], t)
    else (splitOnceSlash t).map fun q => (c :: q.1, q.2)

/-- The owner exception list `PEOPLE` from the source. -/
def PEOPLE : List (List Char) := ["djc".data, "nicoburns".data, "seanmonstar".data]

/-- The `project` function from the source: split the repository full name at
the first `'/'` into `(scope, repo)`; if `scope` is in `PEOPLE` the project
key is `repo`, otherwise the full name.  `none` models the panic of
`split_once('/').unwrap()` on a name with no separator. -/
def project (name : List Char) : Option (List Char) :=
  match splitOnceSlash name with
  | none => none
  | some (scope, repo) => some (if PEOPLE.contains scope then repo else name)

theorem isPre_length {p s : List Char} (h : isPre p s = true) :
    p.length ≤ s.length := by
  induction p generalizing s with
  | nil => simp
  | cons a q ih =>
    cases s with
    | nil => simp [isPre] at h
    | cons b t =>
      simp only [isPre] at h
      split at h
      · simpa using Nat.succ_le_succ (ih h)
      · simp at h

theorem isPre_cons {a b : Char} {p s : List Char} :
    isPre (a :: p) (b :: s) = true ↔ a = b ∧ isPre p s = true := by
  simp only [isPre]
  split
  · simp_all
  · simp_all

theorem isPre_append_self (p t : List Char) : isPre p (p ++ t) = true := by
  induction p with
  | nil => rfl
  | cons a q ih => simp [isPre, ih]

theorem isPre_decomp {p s : List Char} (h : isPre p s = true) :
    s = p ++ s.drop p.length := by
  induction p generalizing s with
  | nil => simp
  | cons a q ih =>
    cases s with
    | nil => simp [isPre] at h
    | cons b t =>
      rcases isPre_cons.mp h with ⟨rfl, h2⟩
      simpa using ih h2

theorem splitOnceSlash_append (owner rest : List Char)
    (h : ('/' : Char) ∉ owner) :
    splitOnceSlash (owner ++ '/' :: rest) = some (owner, rest) := by
  induction owner with
  | nil => simp [splitOnceSlash]
  | cons c t ih =>
    have hc : c ≠ '/' := fun hc => h (by simp [hc])
    have ht : ('/' : Char) ∉ t := fun hm => h (by simp [hm])
    simp [splitOnceSlash, hc, ih ht]

theorem splitOnceSlash_eq_none {name : List Char}
    (h : ('/' : Char) ∉ name) : splitOnceSlash name = none := by
  induction name with
  | nil => rfl
  | cons c t ih =>
    have hc : c ≠ '/' := fun hc => h (by simp [hc])
    have ht : ('/' : Char) ∉ t := fun hm => h (by simp [hm])
    simp [splitOnceSlash, hc, ih ht]

/-- Claim C3: for every repository full name of the form `owner ++ "/" ++ rest`
(with a slash-free owner), the project-key derivation returns `rest` when
`owner` is in the configured exception set, and the full name unchanged
otherwise. -/
theorem c3_project_router (owner rest : List Char) (h : ('/' : Char) ∉ owner) :
    project (owner ++ '/' :: rest) =
      some (if PEOPLE.contains owner then rest else owner ++ '/' :: rest) := by
  simp [project, splitOnceSlash_append owner rest h]

/-- Witness for claim C3, at the concrete full name `djc/quinn` whose owner is
in the exception set. -/
theorem c3_project_router_witness :
    (('/' : Char) ∉ "djc".data) ∧
      project ("djc".data ++ '/' :: "quinn".data) =
        some (if PEOPLE.contains "djc".data then "quinn".data
              else "djc".data ++ '/' :: "quinn".data) :=
  ⟨by decide, c3_project_router "djc".data "quinn".data (by decide)⟩

/-- Claim C7: deriving a project key from a repository full name containing no
`'/'` separator is a fatal error: the derivation does not return normally
(modelled by `none`, the panic of the `unwrap`). -/
theorem c7_malformed_name_fatal (name : List Char) (h : ('/' : Char) ∉ name) :
    project name = none := by
  simp [project, splitOnceSlash_eq_none h]

/-- Witness for claim C7, at the concrete malformed full name `tokio`. -/
theorem c7_malformed_name_fatal_witness :
    (('/' : Char) ∉ "tokio".data) ∧ project "tokio".data = none :=
  ⟨by decide, c7_malformed_name_fatal "tokio".data (by decide)⟩

/-- Association-list model of a `HashMap`: `insertA` overwrites the first
entry carrying the given key, or appends a new entry; models
`HashMap::insert`. -/
def insertA {α β : Type} [DecidableEq α] (k : α) (v : β) :
    List (α × β) → List (α × β)
  | [] => [(k, v)]
  | (k2, v2) :: t => if k2 = k then (k, v) :: t else (k2, v2) :: insertA k v t

/-- Lookup in the association-list model of a `HashMap`. -/
def lookupA {α β : Type} [DecidableEq α] (k : α) : List (α × β) → Option β
  | [] => none
  | (k2, v) :: t => if k2 = k then some v else lookupA k t

/-- Number of entries of an association list carrying the key `k`. -/
def countKey {α β : Type} [DecidableEq α] (k : α) : List (α × β) → Nat
  | [] => 0
  | e :: t => (if e.1 = k then 1 else 0) + countKey k t

/-- Sub-mapping from canonical URL to title, one per project. -/
abbrev SubMap := List (List Char × List Char)

/-- The aggregation `map` of the source: project key to URL-to-title map. -/
abbrev Agg := List (List Char × SubMap)

/-- One aggregation step of the event loop, modelling
`map.entry(project).or_insert_with(HashMap::default).insert(url, title)`. -/
def aggInsert (p u t : List Char) : Agg → Agg
  | [] => [(p, [(u, t)])]
  | (p2, s) :: rest =>
    if p2 = p then (p, insertA u t s) :: rest else (p2, s) :: aggInsert p u t rest

theorem lookupA_aggInsert_self (p u t : List Char) (m : Agg) :
    lookupA p (aggInsert p u t m) =
      some (insertA u t ((lookupA p m).getD [])) := by
  induction m with
  | nil => simp [aggInsert, lookupA, insertA]
  | cons e rest ih =>
    obtain ⟨p2, s⟩ := e
    by_cases hp : p2 = p
    · simp [aggInsert, lookupA, hp]
    · simp [aggInsert, lookupA, hp, ih]

theorem countKey_insertA_self {α β : Type} [DecidableEq α] (k : α) (v : β)
    (s : List (α × β)) :
    countKey k (insertA k v s) = if countKey k s = 0 then 1 else countKey k s := by
  induction s with
  | nil => simp [insertA, countKey]
  | cons e t ih =>
    obtain ⟨k2, v2⟩ := e
    by_cases hk : k2 = k
    · subst hk
      have hins : insertA k2 v ((k2, v2) :: t) = (k2, v) :: t := by
        simp [insertA]
      have h1 : countKey k2 ((k2, v) :: t) = 1 + countKey k2 t := by
        simp [countKey]
      have h2 : countKey k2 ((k2, v2) :: t) = 1 + countKey k2 t := by
        simp [countKey]
      rw [hins, h1, h2, if_neg (by omega)]
    · simp [insertA, countKey, hk, ih]

theorem lookupA_insertA_self {α β : Type} [DecidableEq α] (k : α) (v : β)
    (s : List (α × β)) : lookupA k (insertA k v s) = some v := by
  induction s with
  | nil => simp [insertA, lookupA]
  | cons e t ih =>
    obtain ⟨k2, v2⟩ := e
    by_cases hk : k2 = k
    · simp [insertA, lookupA, hk]
    · simp [insertA, lookupA, hk, ih]

/-- Claim C5: aggregation deduplicates by URL within a project with
last-write-wins semantics.  If the sub-mapping of project `P` holds at most
one entry for URL `X` (the `HashMap` representation invariant), then after
inserting `(X, A)` and then `(X, B)` into project `P`, the sub-mapping of `P`
has exactly one entry for `X`, and its title is `B`. -/
theorem c5_agg_dedup (m : Agg) (P X A B : List Char)
    (h : countKey X ((lookupA P m).getD []) ≤ 1) :
    ∃ s, lookupA P (aggInsert P X B (aggInsert P X A m)) = some s ∧
      countKey X s = 1 ∧ lookupA X s = some B := by
  refine ⟨insertA X B (insertA X A ((lookupA P m).getD [])), ?_, ?_,
    lookupA_insertA_self X B _⟩
  · rw [lookupA_aggInsert_self, lookupA_aggInsert_self]
    simp
  · rw [countKey_insertA_self, countKey_insertA_self]
    by_cases h0 : countKey X ((lookupA P m).getD []) = 0
    · simp [h0]
    · have h1 : countKey X ((lookupA P m).getD []) = 1 := by omega
      simp [h1]

/-- Witness for claim C5, inserting two titles for one URL into the empty
aggregation. -/
theorem c5_agg_dedup_witness :
    countKey "u".data ((lookupA "p".data ([] : Agg)).getD []) ≤ 1 ∧
      ∃ s, lookupA "p".data
          (aggInsert "p".data "u".data "B".data
            (aggInsert "p".data "u".data "A".data [])) = some s ∧
        countKey "u".data s = 1 ∧ lookupA "u".data s = some "B".data :=
  ⟨by decide, c5_agg_dedup [] "p".data "u".data "A".data "B".data (by decide)⟩

/-- The `PREFIX` constant of the source, `https://api.github.com/repos`. -/
def apiHostPre : List Char := "https://api.github.com/repos".data

/-- The public host prepended to every rendered link target. -/
def ghHost : List Char := "https://github.com".data

/-- The public-host test `url.starts_with("https://github.com/")`. -/
def ghHostSlash : List Char := "https://github.com/".data

/-- Path resolution of the report renderer: strip the API prefix; otherwise,
for a URL already on the public host, the source binds `path` to the whole
URL (`None if url.starts_with(...) => &url`); anything else is skipped. -/
def resolvePath (url : List Char) : Option (List Char) :=
  match stripPre apiHostPre url with
  | some path => some path
  | none => if isPre ghHostSlash url then some url else none

/-- A rendered bullet line with the given link text and target, modelling
the format string of `write!(stdout, ...)`. -/
def bulletLine (title target : List Char) : List Char :=
  "* `".data ++ title ++ " <".data ++ target ++ ">`_\n".data

/-- One rendered bullet of the report: the source emits
`* `{title} <https://github.com{path}>`_` for a resolved path, and nothing
for an unresolved URL. -/
def renderItem (url title : List Char) : Option (List Char) :=
  (resolvePath url).map fun path => bulletLine title (ghHost ++ path)

/-- A whole project block of the report: the key line, the `=` underline of
the key's length, a blank line, the bullets, and a trailing blank line. -/
def renderProject (key : List Char) (items : SubMap) : List Char :=
  key ++ "\n".data ++ List.replicate key.length '=' ++ "\n\n".data ++
    (items.filterMap fun it => renderItem it.1 it.2).flatten ++ "\n".data

/-- Claim C1 (code bug): the spec says a URL already starting with
`https://github.com/` passes through unchanged, but the renderer binds the
whole URL as `path` and then prepends `https://github.com` again, producing a
doubled host.  The first conjunct evaluates the renderer at such a URL, the
second shows the produced target differs from the unchanged URL the claim
demands, and the third checks the diagnosed-and-skipped branch. -/
theorem c1_public_host_bug :
    renderItem "https://github.com/djc/quinn/pull/1".data "fix".data =
      some (bulletLine "fix".data
        ("https://github.comhttps://github.com/djc/quinn/pull/1".data)) ∧
    ghHost ++ "https://github.com/djc/quinn/pull/1".data ≠
      "https://github.com/djc/quinn/pull/1".data ∧
    renderItem "ftp://example.com/x".data "fix".data = none := by
  refine ⟨by decide, by decide, by decide⟩

theorem filterMap_renderItem_eq_map (items : SubMap)
    (h : ∀ it ∈ items, (resolvePath it.1).isSome = true) :
    (items.filterMap fun it => renderItem it.1 it.2) =
      items.map fun it => bulletLine it.2 (ghHost ++ (resolvePath it.1).getD []) := by
  induction items with
  | nil => rfl
  | cons it rest ih =>
    have h1 : (resolvePath it.1).isSome = true := h it (by simp)
    obtain ⟨p, hp⟩ := Option.isSome_iff_exists.mp h1
    have h2 := ih fun e he => h e (by simp [he])
    have hit : renderItem it.1 it.2 = some (bulletLine it.2 (ghHost ++ p)) := by
      simp [renderItem, hp]
    simp [List.filterMap_cons, hit, hp, h2]

/-- Claim C6: for a project whose URLs all resolve, the renderer emits the
project key as a line, an underline of `=` of the key's length, a blank
line, one bullet line `* `{title} <{resolved target}>`_` per `(url, title)`
pair, and a trailing blank line. -/
theorem c6_render_format (key : List Char) (items : SubMap)
    (h : ∀ it ∈ items, (resolvePath it.1).isSome = true) :
    renderProject key items =
      key ++ "\n".data ++ List.replicate key.length '=' ++ "\n\n".data ++
        (items.map fun it =>
          bulletLine it.2 (ghHost ++ (resolvePath it.1).getD [])).flatten ++
        "\n".data := by
  rw [renderProject, filterMap_renderItem_eq_map items h]

/-- Witness for claim C6, rendering the project `foo` (underlined with three
`=`) with one resolvable item. -/
theorem c6_render_format_witness :
    (∀ it ∈ ([("https://api.github.com/repos/djc/quinn/pull/1".data,
        "T".data)] : SubMap), (resolvePath it.1).isSome = true) ∧
      renderProject "foo".data
          [("https://api.github.com/repos/djc/quinn/pull/1".data, "T".data)] =
        "foo".data ++ "\n".data ++ List.replicate "foo".data.length '=' ++
          "\n\n".data ++
          (([("https://api.github.com/repos/djc/quinn/pull/1".data,
              "T".data)] : SubMap).map fun it =>
            bulletLine it.2 (ghHost ++ (resolvePath it.1).getD [])).flatten ++
          "\n".data :=
  ⟨by decide, c6_render_format "foo".data _ (by decide)⟩

/-- Model of Rust `String::replace` with a string pattern: replace every
non-overlapping occurrence of `p`, scanning left to right, by `r`. -/
def replaceAll (p r : List Char) (s : List Char) : List Char :=
  if h : p ≠ [] ∧ isPre p s = true then r ++ replaceAll p r (s.drop p.length)
  else
    match s with
    | [] => []
    | c :: t => c :: replaceAll p r t
termination_by s.length
decreasing_by
  · have hp : 0 < p.length := List.length_pos.mpr h.1
    have hs : p.length ≤ s.length := isPre_length h.2
    simp only [List.length_drop]
    omega
  · simp

/-- The `"/issues/"` pattern of the canonicalization step. -/
def issSeg : List Char := "/issues/".data

/-- The `"/pulls/"` pattern of the canonicalization step. -/
def plsSeg : List Char := "/pulls/".data

/-- The `"/pull/"` replacement of the canonicalization step. -/
def pullSeg : List Char := "/pull/".data

/-- The `"PR_"` node-id prefix marking a pull request. -/
def prTag : List Char := "PR_".data

/-- URL canonicalization step of the event loop: if the URL contains
`/issues/` and the node id starts with `PR_`, replace `/issues/` by `/pull/`;
else if the URL contains `/pulls/`, replace it by `/pull/`; else leave the
URL unchanged. -/
def canonicalize (url nid : List Char) : List Char :=
  if containsSub url issSeg && isPre prTag nid then replaceAll issSeg pullSeg url
  else if containsSub url plsSeg then replaceAll plsSeg pullSeg url
  else url

/-- A classified event record, as produced by `EventData::new` from a tracked
event: its `(year, month)` stamp, derived project key, node id, URL and
title. -/
structure Ev where
  mon : Int × Nat
  proj : List Char
  nid : List Char
  url : List Char
  title : List Char
deriving DecidableEq

/-- Strict lexicographic order on `(year, month)` pairs: the derived `<` of
the Rust tuple `(i32, u32)`. -/
def monLt (a b : Int × Nat) : Bool :=
  a.1 < b.1 || (a.1 = b.1 && a.2 < b.2)

/-- Lexicographic `>=` on `(year, month)` pairs. -/
def monGe (a b : Int × Nat) : Bool :=
  b.1 < a.1 || (b.1 = a.1 && b.2 ≤ a.2)

/-- Process the events of one fetched page, in order, as the inner `for` loop
does: an event at or after `stop` is skipped, one strictly before `start`
triggers `break 'outer` (the `true` flag), and an in-window event is
canonicalized and aggregated. -/
def processPage (start stop : Int × Nat) (st : Agg) : List Ev → Agg × Bool
  | [] => (st, false)
  | e :: rest =>
    if monGe e.mon stop then processPage start stop st rest
    else if monLt e.mon start then (st, true)
    else processPage start stop
      (aggInsert e.proj (canonicalize e.url e.nid) e.title st) rest

/-- The pagination loop over the fetched pages: returns the final aggregation
together with the number of pages fetched; a page whose processing raised the
break flag is the last one fetched. -/
def runPages (start stop : Int × Nat) (st : Agg) : List (List Ev) → Agg × Nat
  | [] => (st, 0)
  | pg :: rest =>
    match processPage start stop st pg with
    | (st2, true) => (st2, 1)
    | (st2, false) =>
      let q := runPages start stop st2 rest
      (q.1, q.2 + 1)

/-- Events arrive in reverse-chronological order: no later event has a
strictly larger `(year, month)` stamp. -/
def revChron (pages : List (List Ev)) : Prop :=
  List.Pairwise (fun a b => monLt a.mon b.mon = false) pages.flatten

theorem monLt_start_not_ge_stop {y : Int} {m : Nat} {e : Int × Nat}
    (h : monLt e (y, m) = true) : monGe e (y, m + 1) = false := by
  simp only [monLt, monGe, Bool.or_eq_true, Bool.and_eq_true,
    decide_eq_true_eq, Bool.or_eq_false_iff, Bool.and_eq_false_iff,
    decide_eq_false_iff_not] at h ⊢
  rcases h with h | ⟨h1, h2⟩
  · constructor
    · omega
    · left
      omega
  · constructor
    · omega
    · right
      omega

theorem processPage_stops {y : Int} {m : Nat} :
    ∀ (l : List Ev) (st : Agg), (∃ e ∈ l, monLt e.mon (y, m) = true) →
      (processPage (y, m) (y, m + 1) st l).2 = true := by
  intro l
  induction l with
  | nil => rintro st ⟨e, he, -⟩; cases he
  | cons f t ih =>
    rintro st ⟨e, he, hlt⟩
    by_cases h1 : monGe f.mon (y, m + 1) = true
    · have hef : e ∈ t := by
        rcases List.mem_cons.mp he with rfl | h
        · rw [monLt_start_not_ge_stop hlt] at h1
          cases h1
        · exact h
      simp only [processPage, if_pos h1]
      exact ih st ⟨e, hef, hlt⟩
    · by_cases h2 : monLt f.mon (y, m) = true
      · simp [processPage, h1, h2]
      · have hef : e ∈ t := by
          rcases List.mem_cons.mp he with rfl | h
          · exact absurd hlt h2
          · exact h
        simp only [processPage, if_neg h1, if_neg h2]
        exact ih _ ⟨e, hef, hlt⟩

theorem runPages_count {y : Int} {m : Nat} :
    ∀ (N : Nat) (pages : List (List Ev)) (st : Agg) (hN : N < pages.length)
      (e : Ev), e ∈ pages.get ⟨N, hN⟩ → monLt e.mon (y, m) = true →
      (runPages (y, m) (y, m + 1) st pages).2 ≤ N + 1 := by
  intro N
  induction N with
  | zero =>
    intro pages st hN e he hlt
    match pages with
    | pg :: rest =>
      have hstop : (processPage (y, m) (y, m + 1) st pg).2 = true :=
        processPage_stops pg st ⟨e, he, hlt⟩
      rcases hp : processPage (y, m) (y, m + 1) st pg with ⟨st2, b⟩
      rw [hp] at hstop
      subst hstop
      simp [runPages, hp]
  | succ N ih =>
    intro pages st hN e he hlt
    match pages with
    | pg :: rest =>
      rcases hp : processPage (y, m) (y, m + 1) st pg with ⟨st2, b⟩
      cases b
      · have hN2 : N < rest.length := by
          simpa using Nat.lt_of_succ_lt_succ hN
        have ih2 := ih rest st2 hN2 e he hlt
        simp only [runPages, hp]
        omega
      · simp [runPages, hp]

/-- Claim C4: events at or after the window's end are skipped while
processing continues, and if page `N` (in a reverse-chronologically ordered
feed) contains an event strictly before the window's start, pagination stops
with page `N`: page `N + 1` is never fetched. -/
theorem c4_pagination_window (y : Int) (m : Nat) :
    (∀ (e : Ev) (rest : List Ev) (st : Agg), monGe e.mon (y, m + 1) = true →
        processPage (y, m) (y, m + 1) st (e :: rest) =
          processPage (y, m) (y, m + 1) st rest) ∧
    (∀ (pages : List (List Ev)) (st : Agg) (N : Nat) (hN : N < pages.length)
        (e : Ev), e ∈ pages.get ⟨N, hN⟩ → monLt e.mon (y, m) = true →
        revChron pages → (runPages (y, m) (y, m + 1) st pages).2 ≤ N + 1) :=
  ⟨fun e rest st h => by simp [processPage, h],
   fun pages st N hN e he hlt _ => runPages_count N pages st hN e he hlt⟩

/-- Witness for claim C4: a too-new event is skipped, and a page holding a
December 2023 event stops a run whose window is May 2024. -/
theorem c4_pagination_window_witness :
    (monGe ((2024 : Int), 7) (2024, 5 + 1) = true ∧
      processPage (2024, 5) (2024, 5 + 1) []
          [⟨(2024, 7), "p".data, "n".data, "u".data, "t".data⟩] =
        processPage (2024, 5) (2024, 5 + 1) [] []) ∧
    ((0 : Nat) < ([[⟨((2023 : Int), 12), "p".data, "n".data, "u".data,
        "t".data⟩]] : List (List Ev)).length ∧
      (runPages (2024, 5) (2024, 5 + 1) []
          [[⟨((2023 : Int), 12), "p".data, "n".data, "u".data,
            "t".data⟩]]).2 ≤ 0 + 1) :=
  ⟨⟨by decide, (c4_pagination_window 2024 5).1
      ⟨(2024, 7), "p".data, "n".data, "u".data, "t".data⟩ [] [] (by decide)⟩,
   ⟨by decide, (c4_pagination_window 2024 5).2
      [[⟨((2023 : Int), 12), "p".data, "n".data, "u".data, "t".data⟩]] []
      0 (by decide)
      ⟨((2023 : Int), 12), "p".data, "n".data, "u".data, "t".data⟩
      (by decide) (by decide)
      (by simp [revChron])⟩⟩

/-- Claim C9: once the fold of a page's event list reaches an event strictly
before the window start, every later event of that page contributes nothing:
the page's processing result equals the one with the tail cut off, and the
break flag is raised. -/
theorem c9_midpage_break (y : Int) (m : Nat) (st : Agg) (pre post : List Ev)
    (e : Ev) (h : monLt e.mon (y, m) = true) :
    processPage (y, m) (y, m + 1) st (pre ++ e :: post) =
      processPage (y, m) (y, m + 1) st (pre ++ [e]) ∧
    (processPage (y, m) (y, m + 1) st (pre ++ e :: post)).2 = true := by
  induction pre generalizing st with
  | nil =>
    have hge := monLt_start_not_ge_stop h
    simp [processPage, hge, h]
  | cons f t ih =>
    by_cases h1 : monGe f.mon (y, m + 1) = true
    · simpa [processPage, h1] using ih st
    · by_cases h2 : monLt f.mon (y, m) = true
      · simp [processPage, h1, h2]
      · simpa [processPage, h1, h2] using
          ih (aggInsert f.proj (canonicalize f.url f.nid) f.title st)

/-- Witness for claim C9: an in-window June 2024 event after the too-old
event contributes nothing to a May 2024 run. -/
theorem c9_midpage_break_witness :
    monLt ((2023 : Int), (12 : Nat)) (2024, 5) = true ∧
      (processPage (2024, 5) (2024, 5 + 1) []
          ([] ++ ⟨((2023 : Int), 12), "p".data, "n".data, "u".data, "t".data⟩ ::
            [⟨((2024 : Int), 5), "q".data, "n".data, "v".data, "s".data⟩]) =
        processPage (2024, 5) (2024, 5 + 1) []
          ([] ++ [⟨((2023 : Int), 12), "p".data, "n".data, "u".data,
            "t".data⟩]) ∧
      (processPage (2024, 5) (2024, 5 + 1) []
          ([] ++ ⟨((2023 : Int), 12), "p".data, "n".data, "u".data, "t".data⟩ ::
            [⟨((2024 : Int), 5), "q".data, "n".data, "v".data,
              "s".data⟩])).2 = true) :=
  ⟨by decide, c9_midpage_break 2024 5 [] []
    [⟨((2024 : Int), 5), "q".data, "n".data, "v".data, "s".data⟩]
    ⟨((2023 : Int), 12), "p".data, "n".data, "u".data, "t".data⟩ (by decide)⟩

/-- Prepend a character to the first piece of a split result. -/
def glueHead (c : Char) : List (List Char) → List (List Char)
  | [] => [[c]]
  | h :: t => (c :: h) :: t

/-- Model of Rust `str::split(", ")`: cut at every non-overlapping
occurrence of `", "`, scanning left to right. -/
def splitCS : List Char → List (List Char)
  | [] => [[]]
  | ',' :: ' ' :: t => [] :: splitCS t
  | c :: t => glueHead c (splitCS t)

/-- Model of Rust `str::split_once("; ")`: split at the first occurrence. -/
def splitOnceSS : List Char → Option (List Char × List Char)
  | [] => none
  | ';' :: ' ' :: t => some ([], t)
  | c :: t => (splitOnceSS t).map fun q => (c :: q.1, q.2)

/-- Model of Rust `str::strip_prefix(char)`. -/
def stripPreCh (c : Char) : List Char → Option (List Char)
  | [] => none
  | d :: t => if d = c then some t else none

/-- Model of Rust `str::strip_suffix(char)`. -/
def stripSufCh (c : Char) (s : List Char) : Option (List Char) :=
  if s.getLast? = some c then some s.dropLast else none

/-- The exact relation string compared against, `rel="next"`. -/
def relNext : List Char := "rel=\"next\"".data

/-- Handling of one `Link`-header segment by the pagination loop: a segment
without `"; "` is ignored, a segment whose relation part is not exactly
`rel="next"` is ignored, and a `rel="next"` segment has its URL part
unwrapped from `<` and `>`; `none` models the panic of the two `unwrap`
calls. -/
def parseSeg (cur : Option (List Char)) (seg : List Char) :
    Option (Option (List Char)) :=
  match splitOnceSS seg with
  | none => some cur
  | some (u, r) =>
    if r = relNext then
      match stripPreCh '<' u with
      | none => none
      | some u1 =>
        match stripSufCh '>' u1 with
        | none => none
        | some u2 => some (some u2)
    else some cur

/-- Fold of `parseSeg` over all segments, starting from no next-page URL. -/
def parseSegList : List (List Char) → Option (List Char) →
    Option (Option (List Char))
  | [], cur => some cur
  | seg :: rest, cur =>
    match parseSeg cur seg with
    | none => none
    | some cur2 => parseSegList rest cur2

/-- Parsing of a whole `Link` header value by the source's `for` loop. -/
def parseLinkHeader (hdr : List Char) : Option (Option (List Char)) :=
  parseSegList (splitCS hdr) none

/-- Precondition of claim C10 on one segment: if it splits at `"; "` and its
relation part is exactly `rel="next"`, its URL part begins with `<` and ends
with `>`. -/
def okSeg (seg : List Char) : Bool :=
  match splitOnceSS seg with
  | none => true
  | some (u, r) =>
    if r = relNext then
      decide (u.head? = some '<') && decide (u.getLast? = some '>')
    else true

theorem parseSegList_total :
    ∀ (segs : List (List Char)) (cur : Option (List Char)),
      (∀ seg ∈ segs, okSeg seg = true) → parseSegList segs cur ≠ none := by
  intro segs
  induction segs with
  | nil => intro cur _ h; cases h
  | cons seg rest ih =>
    intro cur h
    have hs : okSeg seg = true := h seg (by simp)
    have ht : ∀ s ∈ rest, okSeg s = true := fun s hm => h s (by simp [hm])
    rcases hsp : splitOnceSS seg with - | ⟨u, r⟩
    · simp only [parseSegList, parseSeg, hsp]
      exact ih cur ht
    · by_cases hr : r = relNext
      · simp only [okSeg, hsp, if_pos hr, Bool.and_eq_true,
          decide_eq_true_eq] at hs
        obtain ⟨hu1, hu2⟩ := hs
        rcases u with - | ⟨c, u1⟩
        · simp at hu1
        · have hc : c = '<' := by simpa using hu1
          subst hc
          have hlast : u1.getLast? = some '>' := by
            rcases u1 with - | ⟨a, t⟩
            · simp at hu2
            · rw [List.getLast?_cons_cons] at hu2
              exact hu2
          simp only [parseSegList, parseSeg, hsp, if_pos hr, stripPreCh,
            stripSufCh, hlast, if_pos rfl, ite_true]
          exact ih _ ht
      · simp only [parseSegList, parseSeg, hsp, if_neg hr]
        exact ih cur ht

/-- Claim C10: pagination-link parsing is total when every `rel="next"`
segment's URL part is wrapped in angle brackets, and panics (modelled by
`none`) on a `rel="next"` segment whose URL part lacks them. -/
theorem c10_link_parse :
    (∀ hdr : List Char, (∀ seg ∈ splitCS hdr, okSeg seg = true) →
        parseLinkHeader hdr ≠ none) ∧
      parseLinkHeader "u; rel=\"next\"".data = none :=
  ⟨fun hdr h => parseSegList_total (splitCS hdr) none h, by decide⟩

/-- Witness for claim C10, on a well-formed header with one bracketed
`rel="next"` segment. -/
theorem c10_link_parse_witness :
    (∀ seg ∈ splitCS "<https://x>; rel=\"next\"".data, okSeg seg = true) ∧
      parseLinkHeader "<https://x>; rel=\"next\"".data ≠ none :=
  ⟨by decide, c10_link_parse.1 "<https://x>; rel=\"next\"".data (by decide)⟩

/-- The characters of `"issues/"`, the part of the issues pattern after its
leading slash. -/
def issTail : List Char := "issues/".data

/-- The characters of `"pulls/"`, the part of the pulls pattern after its
leading slash. -/
def plsTail : List Char := "pulls/".data

/-- The characters of `"issues"`. -/
def issWord : List Char := "issues".data

/-- The characters of `"pulls"`. -/
def plsWord : List Char := "pulls".data

theorem issSeg_eq : issSeg = ['/', 'i', 's', 's', 'u', 'e', 's', '/'] := rfl

theorem plsSeg_eq : plsSeg = ['/', 'p', 'u', 'l', 'l', 's', '/'] := rfl

theorem pullSeg_eq : pullSeg = ['/', 'p', 'u', 'l', 'l', '/'] := rfl

theorem issTail_eq : issTail = ['i', 's', 's', 'u', 'e', 's', '/'] := rfl

theorem plsTail_eq : plsTail = ['p', 'u', 'l', 'l', 's', '/'] := rfl

theorem issSeg_cons : issSeg = '/' :: issTail := rfl

theorem plsSeg_cons : plsSeg = '/' :: plsTail := rfl

theorem issTail_decomp : issTail = issWord ++ ['/'] := rfl

theorem plsTail_decomp : plsTail = plsWord ++ ['/'] := rfl

theorem contains_of_isPre {p s : List Char} (h : isPre p s = true) :
    containsSub s p = true := by
  cases s with
  | nil => simpa [containsSub] using h
  | cons c t => simp [containsSub, h]

theorem contains_cons_of {p t : List Char} (c : Char)
    (h : containsSub t p = true) : containsSub (c :: t) p = true := by
  simp [containsSub, h]

theorem contains_append_of (a : List Char) {s p : List Char}
    (h : containsSub s p = true) : containsSub (a ++ s) p = true := by
  induction a with
  | nil => simpa
  | cons c t ih => simp [containsSub, ih]

theorem contains_drop_of (n : Nat) {s p : List Char}
    (h : containsSub (s.drop n) p = true) : containsSub s p = true := by
  have h2 := contains_append_of (s.take n) h
  rwa [List.take_append_drop] at h2

theorem not_contains_drop {s p : List Char} (n : Nat)
    (h : containsSub s p = false) : containsSub (s.drop n) p = false := by
  cases hd : containsSub (s.drop n) p
  · rfl
  · have h2 := contains_drop_of n hd
    simp [h] at h2

theorem not_contains_tail {c : Char} {t p : List Char}
    (h : containsSub (c :: t) p = false) : containsSub t p = false := by
  cases hd : containsSub t p
  · rfl
  · have h2 := contains_cons_of c hd
    simp [h] at h2

/-- Occurrences of `/issues/` in `/pull/ ++ X` reduce to the junction with
`X`: the replacement text itself holds none, and only its final slash can
start one. -/
theorem contains_pull_iss (X : List Char) :
    containsSub (pullSeg ++ X) issSeg =
      (isPre issTail X || containsSub X issSeg) := by
  simp [pullSeg_eq, issSeg_eq, issTail_eq, containsSub, isPre]

/-- Occurrences of `/pulls/` in `/pull/ ++ X` reduce to the junction with
`X`. -/
theorem contains_pull_pls (X : List Char) :
    containsSub (pullSeg ++ X) plsSeg =
      (isPre plsTail X || containsSub X plsSeg) := by
  simp [pullSeg_eq, plsSeg_eq, plsTail_eq, containsSub, isPre]

/-- A prefix of the form `w ++ "/"` with a slash-free `w` survives
`replaceAll` backwards: both the pattern and the replacement start with a
slash, so such a prefix of the output must already prefix the input. -/
theorem isPre_slash_replaceAll {p r : List Char} (hp : p.head? = some '/')
    (hr : r.head? = some '/') :
    ∀ (w : List Char), (∀ c ∈ w, c ≠ '/') → ∀ s : List Char,
      isPre (w ++ ['/']) (replaceAll p r s) = true →
      isPre (w ++ ['/']) s = true := by
  intro w
  induction w with
  | nil =>
    intro _ s h
    rw [replaceAll.eq_def] at h
    split at h
    · rename_i h1
      rcases p with - | ⟨c, p2⟩
      · simp at hp
      · have hc : c = '/' := by simpa using hp
        subst hc
        have hd := isPre_decomp h1.2
        rw [hd]
        simp [isPre]
    · cases s with
      | nil => simp [isPre] at h
      | cons c t =>
        rw [List.nil_append] at h ⊢
        obtain ⟨hc, -⟩ := isPre_cons.mp h
        exact isPre_cons.mpr ⟨hc, rfl⟩
  | cons a w2 ih =>
    intro hw s h
    rw [replaceAll.eq_def] at h
    split at h
    · rcases r with - | ⟨c, r2⟩
      · simp at hr
      · have hc : c = '/' := by simpa using hr
        subst hc
        rw [List.cons_append] at h
        obtain ⟨ha, -⟩ := isPre_cons.mp h
        exact absurd ha (hw a (by simp))
    · cases s with
      | nil => rw [List.cons_append] at h; simp [isPre] at h
      | cons c t =>
        rw [List.cons_append] at h ⊢
        obtain ⟨hac, h2⟩ := isPre_cons.mp h
        have h3 := ih (fun x hx => hw x (by simp [hx])) t h2
        exact isPre_cons.mpr ⟨hac, h3⟩

theorem issSeg_len : issSeg.length = 8 := rfl

theorem plsSeg_len : plsSeg.length = 7 := rfl

theorem iss_plsTail_assoc (rest : List Char) :
    issSeg ++ (plsTail ++ rest) = "/issues".data ++ (plsSeg ++ rest) := rfl

theorem pls_issTail_assoc (rest : List Char) :
    plsSeg ++ (issTail ++ rest) = "/pulls".data ++ (issSeg ++ rest) := rfl

/-- After replacing every `/issues/` by `/pull/` in a string holding no
doubled segment `/issues/issues/`, no `/issues/` occurrence remains. -/
theorem replaceAll_iss_no_iss (s : List Char)
    (h : containsSub s (issSeg ++ issTail) = false) :
    containsSub (replaceAll issSeg pullSeg s) issSeg = false := by
  rw [replaceAll.eq_def]
  split
  · rename_i h1
    rw [contains_pull_iss]
    have hb : containsSub (s.drop issSeg.length) (issSeg ++ issTail) = false :=
      not_contains_drop _ h
    have ha : isPre issTail
        (replaceAll issSeg pullSeg (s.drop issSeg.length)) = false := by
      cases hx : isPre issTail (replaceAll issSeg pullSeg (s.drop issSeg.length))
      · rfl
      · exfalso
        rw [issTail_decomp] at hx
        have h2 := isPre_slash_replaceAll (p := issSeg) (r := pullSeg)
          rfl rfl issWord (by decide) _ hx
        have h3 := isPre_decomp h1.2
        have h4 := isPre_decomp h2
        have h5 : isPre (issSeg ++ issTail) s = true := by
          rw [h3, h4, ← issTail_decomp, ← List.append_assoc]
          exact isPre_append_self _ _
        have h6 := contains_of_isPre h5
        simp [h] at h6
    rw [ha, replaceAll_iss_no_iss (s.drop issSeg.length) hb]
    rfl
  · rename_i h1
    cases s with
    | nil => simp [containsSub, isPre, issSeg_eq]
    | cons c t =>
      have hb : containsSub t (issSeg ++ issTail) = false := not_contains_tail h
      have hrec := replaceAll_iss_no_iss t hb
      have ha : isPre issSeg (c :: replaceAll issSeg pullSeg t) = false := by
        cases hx : isPre issSeg (c :: replaceAll issSeg pullSeg t)
        · rfl
        · exfalso
          rw [issSeg_cons] at hx
          obtain ⟨hc, hx2⟩ := isPre_cons.mp hx
          rw [issTail_decomp] at hx2
          have h2 := isPre_slash_replaceAll (p := issSeg) (r := pullSeg)
            rfl rfl issWord (by decide) t hx2
          have h5 : isPre issSeg (c :: t) = true := by
            rw [issSeg_cons]
            exact isPre_cons.mpr ⟨hc, by rw [issTail_decomp]; exact h2⟩
          exact h1 ⟨by decide, h5⟩
      simp [containsSub, ha, hrec]
termination_by s.length
decreasing_by
  all_goals first
    | (rename_i h9
       subst h9
       simp only [List.length_cons]
       omega)
    | (rename_i h9 h10
       subst h9
       simp only [List.length_cons]
       omega)
    | (have h8 := isPre_length (‹issSeg ≠ [] ∧ isPre issSeg s = true›).2
       simp only [List.length_drop, issSeg_len] at h8 ⊢
       omega)

/-- After replacing every `/pulls/` by `/pull/` in a string holding no
doubled segment `/pulls/pulls/`, no `/pulls/` occurrence remains. -/
theorem replaceAll_pls_no_pls (s : List Char)
    (h : containsSub s (plsSeg ++ plsTail) = false) :
    containsSub (replaceAll plsSeg pullSeg s) plsSeg = false := by
  rw [replaceAll.eq_def]
  split
  · rename_i h1
    rw [contains_pull_pls]
    have hb : containsSub (s.drop plsSeg.length) (plsSeg ++ plsTail) = false :=
      not_contains_drop _ h
    have ha : isPre plsTail
        (replaceAll plsSeg pullSeg (s.drop plsSeg.length)) = false := by
      cases hx : isPre plsTail (replaceAll plsSeg pullSeg (s.drop plsSeg.length))
      · rfl
      · exfalso
        rw [plsTail_decomp] at hx
        have h2 := isPre_slash_replaceAll (p := plsSeg) (r := pullSeg)
          rfl rfl plsWord (by decide) _ hx
        have h3 := isPre_decomp h1.2
        have h4 := isPre_decomp h2
        have h5 : isPre (plsSeg ++ plsTail) s = true := by
          rw [h3, h4, ← plsTail_decomp, ← List.append_assoc]
          exact isPre_append_self _ _
        have h6 := contains_of_isPre h5
        simp [h] at h6
    rw [ha, replaceAll_pls_no_pls (s.drop plsSeg.length) hb]
    rfl
  · rename_i h1
    cases s with
    | nil => simp [containsSub, isPre, plsSeg_eq]
    | cons c t =>
      have hb : containsSub t (plsSeg ++ plsTail) = false := not_contains_tail h
      have hrec := replaceAll_pls_no_pls t hb
      have ha : isPre plsSeg (c :: replaceAll plsSeg pullSeg t) = false := by
        cases hx : isPre plsSeg (c :: replaceAll plsSeg pullSeg t)
        · rfl
        · exfalso
          rw [plsSeg_cons] at hx
          obtain ⟨hc, hx2⟩ := isPre_cons.mp hx
          rw [plsTail_decomp] at hx2
          have h2 := isPre_slash_replaceAll (p := plsSeg) (r := pullSeg)
            rfl rfl plsWord (by decide) t hx2
          have h5 : isPre plsSeg (c :: t) = true := by
            rw [plsSeg_cons]
            exact isPre_cons.mpr ⟨hc, by rw [plsTail_decomp]; exact h2⟩
          exact h1 ⟨by decide, h5⟩
      simp [containsSub, ha, hrec]
termination_by s.length
decreasing_by
  all_goals first
    | (rename_i h9
       subst h9
       simp only [List.length_cons]
       omega)
    | (rename_i h9 h10
       subst h9
       simp only [List.length_cons]
       omega)
    | (have h8 := isPre_length (‹plsSeg ≠ [] ∧ isPre plsSeg s = true›).2
       simp only [List.length_drop, plsSeg_len] at h8 ⊢
       omega)

/-- Replacing `/issues/` by `/pull/` creates no `/pulls/` occurrence. -/
theorem replaceAll_iss_no_pls (s : List Char)
    (h : containsSub s plsSeg = false) :
    containsSub (replaceAll issSeg pullSeg s) plsSeg = false := by
  rw [replaceAll.eq_def]
  split
  · rename_i h1
    rw [contains_pull_pls]
    have hb : containsSub (s.drop issSeg.length) plsSeg = false :=
      not_contains_drop _ h
    have ha : isPre plsTail
        (replaceAll issSeg pullSeg (s.drop issSeg.length)) = false := by
      cases hx : isPre plsTail (replaceAll issSeg pullSeg (s.drop issSeg.length))
      · rfl
      · exfalso
        rw [plsTail_decomp] at hx
        have h2 := isPre_slash_replaceAll (p := issSeg) (r := pullSeg)
          rfl rfl plsWord (by decide) _ hx
        have h3 := isPre_decomp h1.2
        have h4 := isPre_decomp h2
        have h5 : containsSub s plsSeg = true := by
          rw [h3, h4, ← plsTail_decomp, iss_plsTail_assoc]
          exact contains_append_of _ (contains_of_isPre (isPre_append_self _ _))
        simp [h] at h5
    rw [ha, replaceAll_iss_no_pls (s.drop issSeg.length) hb]
    rfl
  · cases s with
    | nil => simp [containsSub, isPre, plsSeg_eq]
    | cons c t =>
      have hb : containsSub t plsSeg = false := not_contains_tail h
      have hrec := replaceAll_iss_no_pls t hb
      have ha : isPre plsSeg (c :: replaceAll issSeg pullSeg t) = false := by
        cases hx : isPre plsSeg (c :: replaceAll issSeg pullSeg t)
        · rfl
        · exfalso
          rw [plsSeg_cons] at hx
          obtain ⟨hc, hx2⟩ := isPre_cons.mp hx
          rw [plsTail_decomp] at hx2
          have h2 := isPre_slash_replaceAll (p := issSeg) (r := pullSeg)
            rfl rfl plsWord (by decide) t hx2
          have h5 : containsSub (c :: t) plsSeg = true := by
            apply contains_of_isPre
            rw [plsSeg_cons]
            exact isPre_cons.mpr ⟨hc, by rw [plsTail_decomp]; exact h2⟩
          simp [h] at h5
      simp [containsSub, ha, hrec]
termination_by s.length
decreasing_by
  all_goals first
    | (rename_i h9
       subst h9
       simp only [List.length_cons]
       omega)
    | (rename_i h9 h10
       subst h9
       simp only [List.length_cons]
       omega)
    | (have h8 := isPre_length (‹issSeg ≠ [] ∧ isPre issSeg s = true›).2
       simp only [List.length_drop, issSeg_len] at h8 ⊢
       omega)

/-- Replacing `/pulls/` by `/pull/` creates no `/issues/` occurrence. -/
theorem replaceAll_pls_no_iss (s : List Char)
    (h : containsSub s issSeg = false) :
    containsSub (replaceAll plsSeg pullSeg s) issSeg = false := by
  rw [replaceAll.eq_def]
  split
  · rename_i h1
    rw [contains_pull_iss]
    have hb : containsSub (s.drop plsSeg.length) issSeg = false :=
      not_contains_drop _ h
    have ha : isPre issTail
        (replaceAll plsSeg pullSeg (s.drop plsSeg.length)) = false := by
      cases hx : isPre issTail (replaceAll plsSeg pullSeg (s.drop plsSeg.length))
      · rfl
      · exfalso
        rw [issTail_decomp] at hx
        have h2 := isPre_slash_replaceAll (p := plsSeg) (r := pullSeg)
          rfl rfl issWord (by decide) _ hx
        have h3 := isPre_decomp h1.2
        have h4 := isPre_decomp h2
        have h5 : containsSub s issSeg = true := by
          rw [h3, h4, ← issTail_decomp, pls_issTail_assoc]
          exact contains_append_of _ (contains_of_isPre (isPre_append_self _ _))
        simp [h] at h5
    rw [ha, replaceAll_pls_no_iss (s.drop plsSeg.length) hb]
    rfl
  · cases s with
    | nil => simp [containsSub, isPre, issSeg_eq]
    | cons c t =>
      have hb : containsSub t issSeg = false := not_contains_tail h
      have hrec := replaceAll_pls_no_iss t hb
      have ha : isPre issSeg (c :: replaceAll plsSeg pullSeg t) = false := by
        cases hx : isPre issSeg (c :: replaceAll plsSeg pullSeg t)
        · rfl
        · exfalso
          rw [issSeg_cons] at hx
          obtain ⟨hc, hx2⟩ := isPre_cons.mp hx
          rw [issTail_decomp] at hx2
          have h2 := isPre_slash_replaceAll (p := plsSeg) (r := pullSeg)
            rfl rfl issWord (by decide) t hx2
          have h5 : containsSub (c :: t) issSeg = true := by
            apply contains_of_isPre
            rw [issSeg_cons]
            exact isPre_cons.mpr ⟨hc, by rw [issTail_decomp]; exact h2⟩
          simp [h] at h5
      simp [containsSub, ha, hrec]
termination_by s.length
decreasing_by
  all_goals first
    | (rename_i h9
       subst h9
       simp only [List.length_cons]
       omega)
    | (rename_i h9 h10
       subst h9
       simp only [List.length_cons]
       omega)
    | (have h8 := isPre_length (‹plsSeg ≠ [] ∧ isPre plsSeg s = true›).2
       simp only [List.length_drop, plsSeg_len] at h8 ⊢
       omega)

/-- Counterexample to claim C2 as stated: for the record with URL
`/issues/pulls/` and node id `PR_1`, the first canonicalization pass rewrites
`/issues/` and the second pass then rewrites the remaining `/pulls/`, so
applying the step twice differs from applying it once. -/
theorem c2_idempotent_cex :
    canonicalize (canonicalize "/issues/pulls/".data "PR_1".data) "PR_1".data ≠
      canonicalize "/issues/pulls/".data "PR_1".data := by
  have h1 : canonicalize "/issues/pulls/".data "PR_1".data =
      "/pull/pulls/".data := by
    simp [canonicalize, replaceAll, containsSub, isPre, issSeg, plsSeg,
      pullSeg, prTag]
  have h2 : canonicalize "/pull/pulls/".data "PR_1".data =
      "/pull/pull/".data := by
    simp [canonicalize, replaceAll, containsSub, isPre, issSeg, plsSeg,
      pullSeg, prTag]
  rw [h1, h2]
  decide

/-- Claim C2 (amended): URL canonicalization is idempotent for every record
whose URL contains no doubled segment `/issues/issues/` or `/pulls/pulls/`
and, when the node id starts with `PR_` and the URL contains `/issues/`,
does not also contain `/pulls/`. -/
theorem c2_canonicalize_idempotent (url nid : List Char)
    (h1 : containsSub url (issSeg ++ issTail) = false)
    (h2 : containsSub url (plsSeg ++ plsTail) = false)
    (h3 : containsSub url issSeg = true → isPre prTag nid = true →
      containsSub url plsSeg = false) :
    canonicalize (canonicalize url nid) nid = canonicalize url nid := by
  cases hA : containsSub url issSeg && isPre prTag nid with
  | true =>
    have hA0 := hA
    rw [Bool.and_eq_true] at hA0
    obtain ⟨hA1, hA2⟩ := hA0
    have hv : canonicalize url nid = replaceAll issSeg pullSeg url := by
      simp [canonicalize, hA]
    rw [hv]
    have hni := replaceAll_iss_no_iss url h1
    have hnp := replaceAll_iss_no_pls url (h3 hA1 hA2)
    simp [canonicalize, hni, hnp]
  | false =>
    cases hB : containsSub url plsSeg with
    | true =>
      have hv : canonicalize url nid = replaceAll plsSeg pullSeg url := by
        simp [canonicalize, hA, hB]
      rw [hv]
      have hnp := replaceAll_pls_no_pls url h2
      cases hPR : isPre prTag nid with
      | false => simp [canonicalize, hPR, hnp]
      | true =>
        have hci : containsSub url issSeg = false := by
          rw [hPR] at hA
          simpa using hA
        have hni := replaceAll_pls_no_iss url hci
        simp [canonicalize, hni, hnp]
    | false =>
      have hv : canonicalize url nid = url := by
        simp [canonicalize, hA, hB]
      rw [hv, hv]

/-- Witness for the amended claim C2, on a real-shaped issues API URL marked
as a pull request. -/
theorem c2_canonicalize_idempotent_witness :
    (containsSub "https://api.github.com/repos/djc/quinn/issues/42".data
        (issSeg ++ issTail) = false ∧
      containsSub "https://api.github.com/repos/djc/quinn/issues/42".data
        (plsSeg ++ plsTail) = false ∧
      (containsSub "https://api.github.com/repos/djc/quinn/issues/42".data
          issSeg = true →
        isPre prTag "PR_kwDO".data = true →
        containsSub "https://api.github.com/repos/djc/quinn/issues/42".data
          plsSeg = false)) ∧
    canonicalize
        (canonicalize "https://api.github.com/repos/djc/quinn/issues/42".data
          "PR_kwDO".data) "PR_kwDO".data =
      canonicalize "https://api.github.com/repos/djc/quinn/issues/42".data
        "PR_kwDO".data :=
  ⟨⟨by decide, by decide, by decide⟩,
    c2_canonicalize_idempotent
      "https://api.github.com/repos/djc/quinn/issues/42".data "PR_kwDO".data
      (by decide) (by decide) (by decide)⟩

/-- Counterexample to claim C8 as stated: for the URL `/issues/a/issues/`
with node id `PR_1` the rewrite conditions hold, but the output rewrites
both occurrences (Rust `replace` replaces every occurrence), so no
decomposition rewriting exactly one matching segment produces it: the
lengths cannot match. -/
theorem c8_exactly_one_cex :
    (containsSub "/issues/a/issues/".data issSeg = true ∧
      isPre prTag "PR_1".data = true) ∧
    ¬ ∃ a b : List Char, "/issues/a/issues/".data = a ++ issSeg ++ b ∧
        canonicalize "/issues/a/issues/".data "PR_1".data =
          a ++ pullSeg ++ b := by
  constructor
  · exact ⟨by decide, by decide⟩
  · rintro ⟨a, b, hsplit, hout⟩
    have he : canonicalize "/issues/a/issues/".data "PR_1".data =
        "/pull/a/pull/".data := by
      simp [canonicalize, replaceAll, containsSub, isPre, issSeg, plsSeg,
        pullSeg, prTag]
    rw [he] at hout
    have l1 := congrArg List.length hsplit
    have l2 := congrArg List.length hout
    rw [List.length_append, List.length_append] at l1 l2
    have e1 : ("/issues/a/issues/".data).length = 17 := rfl
    have e2 : ("/pull/a/pull/".data).length = 13 := rfl
    have e3 : issSeg.length = 8 := rfl
    have e4 : pullSeg.length = 6 := rfl
    rw [e1, e3] at l1
    rw [e2, e4] at l2
    omega

/-- Claim C8 (amended): the canonicalizer applies at most one rewrite rule
per record (the result is the input, or one global `/issues/`-to-`/pull/`
replacement, or one global `/pulls/`-to-`/pull/` replacement), and the
applying rule rewrites every occurrence of its segment: none remains,
provided the URL holds no doubled trigger segment. -/
theorem c8_one_rule_all_occurrences (url nid : List Char)
    (h1 : containsSub url (issSeg ++ issTail) = false)
    (h2 : containsSub url (plsSeg ++ plsTail) = false) :
    (canonicalize url nid = url ∨
      canonicalize url nid = replaceAll issSeg pullSeg url ∨
      canonicalize url nid = replaceAll plsSeg pullSeg url) ∧
    ((containsSub url issSeg && isPre prTag nid) = true →
      containsSub (canonicalize url nid) issSeg = false) ∧
    ((containsSub url issSeg && isPre prTag nid) = false →
      containsSub url plsSeg = true →
      containsSub (canonicalize url nid) plsSeg = false) := by
  refine ⟨?_, ?_, ?_⟩
  · cases hA : containsSub url issSeg && isPre prTag nid with
    | true =>
      right; left
      simp [canonicalize, hA]
    | false =>
      cases hB : containsSub url plsSeg with
      | true =>
        right; right
        simp [canonicalize, hA, hB]
      | false =>
        left
        simp [canonicalize, hA, hB]
  · intro hA
    have hv : canonicalize url nid = replaceAll issSeg pullSeg url := by
      simp [canonicalize, hA]
    rw [hv]
    exact replaceAll_iss_no_iss url h1
  · intro hA hB
    have hv : canonicalize url nid = replaceAll plsSeg pullSeg url := by
      simp [canonicalize, hA, hB]
    rw [hv]
    exact replaceAll_pls_no_pls url h2

/-- Witness for the amended claim C8, on a real-shaped pulls API URL. -/
theorem c8_one_rule_all_occurrences_witness :
    (containsSub "https://api.github.com/repos/o/r/pulls/7".data
        (issSeg ++ issTail) = false ∧
      containsSub "https://api.github.com/repos/o/r/pulls/7".data
        (plsSeg ++ plsTail) = false) ∧
    ((canonicalize "https://api.github.com/repos/o/r/pulls/7".data
          "IC_x".data = "https://api.github.com/repos/o/r/pulls/7".data ∨
       canonicalize "https://api.github.com/repos/o/r/pulls/7".data
          "IC_x".data =
         replaceAll issSeg pullSeg
           "https://api.github.com/repos/o/r/pulls/7".data ∨
       canonicalize "https://api.github.com/repos/o/r/pulls/7".data
          "IC_x".data =
         replaceAll plsSeg pullSeg
           "https://api.github.com/repos/o/r/pulls/7".data) ∧
     ((containsSub "https://api.github.com/repos/o/r/pulls/7".data issSeg &&
         isPre prTag "IC_x".data) = true →
       containsSub
         (canonicalize "https://api.github.com/repos/o/r/pulls/7".data
           "IC_x".data) issSeg = false) ∧
     ((containsSub "https://api.github.com/repos/o/r/pulls/7".data issSeg &&
         isPre prTag "IC_x".data) = false →
       containsSub "https://api.github.com/repos/o/r/pulls/7".data plsSeg =
         true →
       containsSub
         (canonicalize "https://api.github.com/repos/o/r/pulls/7".data
           "IC_x".data) plsSeg = false)) :=
  ⟨⟨by decide, by decide⟩,
    c8_one_rule_all_occurrences
      "https://api.github.com/repos/o/r/pulls/7".data "IC_x".data
      (by decide) (by decide)⟩

end TmogEvents
